import Mathlib

set_option maxRecDepth 10000

/-!
Shallow embedding of the mml-player core (TypeScript) in Lean 4.

Numbers: JavaScript numbers are modelled as `ℚ` (exact rationals); the
`Number.isFinite` guards of the source are therefore vacuous in the model and
are noted where they occur.  Frequencies computed by `noteToFrequency` involve
`2 ^ (d / 12)` and are modelled over `ℝ`.

Sources embedded:
- `src/src/play-mml.ts` (`playMml`, `buildPlaybackQueue`)
- `src/src/play-sample.ts` (`resolveBuffer`, `convertVolumeToGain`,
  `scheduleGainEnvelope`)
- `src/src/stop-mml.ts` (`stopMml`)
- `src/src/composables/note-to-frequency.ts` (`noteToFrequency`)
- the MML parser (`mmlToNote`, `parseLine`, `computeDuration`, …)
-/

deriving instance DecidableEq for Except

/-- Error kinds thrown by the source (spec taxonomy: FormatError / RangeError /
TypeError). -/
inductive JsError where
  | formatError
  | rangeError
  | typeError
deriving DecidableEq, Repr

/-- A parsed note event (`PlayNoteOptions` in `types.ts`): instrument name,
pitch string (or the sentinel `"REST"`), duration in milliseconds, normalized
volume. -/
structure NoteEvent where
  name : String
  note : String
  duration : ℚ
  volume : ℚ
deriving DecidableEq, Repr

/-- `PlaybackTiming` from `types.ts`: the shared base context time and the
per-event delay in seconds. -/
structure PlaybackTiming where
  contextTime : ℚ
  delay : ℚ
deriving DecidableEq, Repr

/-- REST detection from `play-mml.ts`:
`note.trim().toUpperCase() === 'REST'`. -/
def isRestNote (note : String) : Bool :=
  note.trim.toUpper = "REST"

/-- `buildPlaybackQueue` from `src/src/play-mml.ts` (lines 88–119), for a single
track: walks the events, throws `RangeError` on a non-positive duration
(`Number.isFinite` is vacuous over `ℚ`), pushes non-REST events with the
accumulated delay, and accumulates every duration (REST included).  The
accumulator argument is the `accumulatedDelaySeconds` variable. -/
def buildQueueGo (base : ℚ) : List NoteEvent → ℚ → Except JsError (List (NoteEvent × PlaybackTiming))
  | [], _ => .ok []
  | n :: rest, acc =>
    if n.duration ≤ 0 then .error .rangeError
    else
      let head : List (NoteEvent × PlaybackTiming) :=
        if isRestNote n.note then [] else [(n, ⟨base, acc⟩)]
      (buildQueueGo base rest (acc + n.duration / 1000)).map (fun q => head ++ q)

/-- `buildPlaybackQueue track baseContextTime` with the accumulator started at
zero, as in the source. -/
def buildPlaybackQueue (track : List NoteEvent) (base : ℚ) : Except JsError (List (NoteEvent × PlaybackTiming)) :=
  buildQueueGo base track 0

/-- `playMml` from `src/src/play-mml.ts` (lines 58–79): iterates the tracks,
skips empty ones, builds each track's queue and immediately schedules it
(calls `playSample` per queued item) before moving to the next track.  The
result is the list of `playSample` invocations that actually happened, in
order, together with `true` when a `RangeError` aborted the call.  A thrown
error stops the iteration at once, but calls already made stay made. -/
def playMmlRun (base : ℚ) : List (List NoteEvent) → List (NoteEvent × PlaybackTiming) × Bool
  | [] => ([], false)
  | t :: rest =>
    if t.isEmpty then playMmlRun base rest
    else
      match buildPlaybackQueue t base with
      | .error _ => ([], true)
      | .ok q =>
        let tail := playMmlRun base rest
        (q ++ tail.1, tail.2)

/-- Specification-side description of the scheduler output for one track
(spec §4.4): one pair per non-REST event, in parsed order, whose delay is the
cumulative duration in seconds of all preceding events of that track, REST
included. -/
def withIdx (n : ℕ) : List NoteEvent → List (ℕ × NoteEvent)
  | [] => []
  | a :: l => (n, a) :: withIdx (n + 1) l

/-- Sum in seconds of the durations of the first `i` events of a track. -/
def precedingSeconds (track : List NoteEvent) (i : ℕ) : ℚ :=
  ((track.take i).map NoteEvent.duration).sum / 1000

/-- Spec-side pairs for one track: each non-REST event with the shared base
time and the cumulative duration of all events preceding it. -/
def specPairs (base : ℚ) (track : List NoteEvent) : List (NoteEvent × PlaybackTiming) :=
  (withIdx 0 track).filterMap fun p =>
    if isRestNote p.2.note then none
    else some (p.2, ⟨base, precedingSeconds track p.1⟩)

/-- A track all of whose events have positive duration (the scheduler's
validity condition over `ℚ`). -/
def validTrack (track : List NoteEvent) : Prop :=
  ∀ e ∈ track, 0 < e.duration

instance (track : List NoteEvent) : Decidable (validTrack track) := by
  unfold validTrack; infer_instance

/-! ## Gain envelope (`scheduleGainEnvelope`, `src/src/play-sample.ts` 242–269) -/

/-- One gain automation command issued on the `GainNode`'s gain parameter. -/
inductive GainEvent where
  | cancel (time : ℚ)
  | setValue (value : ℚ) (time : ℚ)
  | linearRamp (value : ℚ) (time : ℚ)
deriving DecidableEq, Repr

/-- `DEFAULT_FADE_DURATION = 0.01` (seconds). -/
def defaultFadeDuration : ℚ := 1 / 100

/-- `scheduleGainEnvelope` from `src/src/play-sample.ts` (lines 242–269): the
exact automation commands issued, in order.  The fade length is the constant
`DEFAULT_FADE_DURATION`; only the fade-out start is clamped, via
`Math.max(startTime, stopTime - fadeDuration)`. -/
def scheduleGainEnvelope (startTime durationSeconds targetGain : ℚ) : List GainEvent :=
  let fadeDuration := defaultFadeDuration
  let stopTime := startTime + durationSeconds
  let fadeOutStart := max startTime (stopTime - fadeDuration)
  [GainEvent.cancel startTime, GainEvent.setValue 0 startTime]
    ++ (if 0 < fadeDuration then [GainEvent.linearRamp targetGain (startTime + fadeDuration)]
        else [GainEvent.setValue targetGain startTime])
    ++ (if startTime + fadeDuration < fadeOutStart then [GainEvent.setValue targetGain fadeOutStart]
        else [])
    ++ (if 0 < fadeDuration then [GainEvent.linearRamp 0 stopTime]
        else [GainEvent.setValue 0 stopTime])

/-- `convertVolumeToGain` from `src/src/play-sample.ts` (lines 220–231), with
the decibel power kept symbolic: volume 0 maps to exact silence, any other
volume to `10 ^ ((-60 + 60 * volume) / 20)`.  Only the zero case and the
exponent are needed by the claims, so the result records the exponent. -/
def convertVolumeToGainDb (volume : ℚ) : Option ℚ :=
  if volume = 0 then none else some ((-60 + (0 - -60) * volume) / 20)

/-! ## Buffer resolver (`resolveBuffer`, `src/src/play-sample.ts` 123–179) -/

/-- Key lookup in the instrument's frequency → buffer map (`buffers[f]`);
buffers are abstracted to identifiers. -/
def lookupFreq : List (ℚ × ℕ) → ℚ → Option ℕ
  | [], _ => none
  | (f, b) :: rest, t => if f = t then some b else lookupFreq rest t

/-- The scan loop of `resolveBuffer`: starting from the first stored frequency,
replace the candidate only on a strictly smaller absolute difference, so the
first-seen frequency wins ties. -/
def nearestScan (t : ℚ) : ℚ → List ℚ → ℚ
  | best, [] => best
  | best, c :: rest =>
    if |c - t| < |best - t| then nearestScan t c rest else nearestScan t best rest

/-- `resolveBuffer` from `src/src/play-sample.ts` (lines 123–179).  The
`Number.isFinite` filter on stored keys and the finiteness half of the
playback-rate guard are vacuous over `ℚ`; division by zero yields `0` in `ℚ`,
which the `rate ≤ 0` branch rejects exactly as the source rejects the
non-finite rate produced by JavaScript. -/
def resolveBuffer (buffers : List (ℚ × ℕ)) (t : ℚ) : Option (ℕ × ℚ) :=
  match lookupFreq buffers t with
  | some b => some (b, 1)
  | none =>
    match buffers.map Prod.fst with
    | [] => none
    | f0 :: fs =>
      let nf := nearestScan t f0 fs
      match lookupFreq buffers nf with
      | none => none
      | some b =>
        let rate := t / nf
        if rate ≤ 0 then none else some (b, rate)

/-- Spec-side property (spec §4.2): `nf` is a stored frequency of minimal
absolute difference to the target, and every frequency listed before its
occurrence has a strictly larger difference (first-seen wins ties). -/
def isFirstNearest (t nf : ℚ) (fs : List ℚ) : Prop :=
  nf ∈ fs ∧ (∀ f ∈ fs, |nf - t| ≤ |f - t|) ∧
    ∃ pre post, fs = pre ++ nf :: post ∧ ∀ f ∈ pre, |nf - t| < |f - t|

/-! ## Stop controller (`stopMml`, `src/src/stop-mml.ts`) -/

/-- The mutable state touched by `stopMml`: the voice registry (`activeNodes`,
a `Set`, hence no duplicates), the queue of `setTimeout`-deferred disposals,
and a generation counter for the master gain node that is replaced after the
fade. -/
structure StopState where
  activeNodes : List ℕ
  pendingDisposals : List ℕ
  masterGainGeneration : ℕ
deriving DecidableEq, Repr

/-- `stopMml` from `src/src/stop-mml.ts` (lines 5–52): snapshots `activeNodes`
(`Array.from`), and for each snapshot entry ramps its gain down, schedules the
source stop, defers `dispose` via `setTimeout`, and deletes the entry from the
live registry.  The master gain is faded and replaced by a fresh one
(deferred).  Every audio call sits in a `try`/`catch`, so the function never
throws; in the model it is total. -/
def stopMml (s : StopState) : StopState :=
  let snapshot := s.activeNodes
  { activeNodes := snapshot.foldl (fun ns n => ns.erase n) s.activeNodes
    pendingDisposals := s.pendingDisposals ++ snapshot
    masterGainGeneration := s.masterGainGeneration + 1 }

/-! ## MML parser (`mmlToNote`, `parseLine`, … from the parser source file) -/

/-- `clampNumber` from the parser source, at `ℕ` (all clamped quantities are
non-negative integers). -/
def clampNat (v lo hi : ℕ) : ℕ :=
  if v < lo then lo else if hi < v then hi else v

/-- `clampNumber` at `ℚ`, used inside `computeDuration`. -/
def clampQ (v lo hi : ℚ) : ℚ :=
  if v < lo then lo else if hi < v then hi else v

/-- `computeDuration` from the parser source (lines 322–334): clamp tempo to
[40,200] and length to [1,64], duration = beat ms × beats, ×1.5 when dotted. -/
def computeDuration (tempo length : ℕ) (isDotted : Bool) : ℚ :=
  let clampedTempo := clampQ (tempo : ℚ) 40 200
  let clampedLength := clampQ (length : ℚ) 1 64
  let beatDurationMs := 60000 / clampedTempo
  let noteBeats := 4 / clampedLength
  let duration := beatDurationMs * noteBeats
  if isDotted then duration * (3 / 2) else duration

/-- `convertVolume` from the parser source: clamp to [0,15], volume 0 stays 0,
otherwise divide by 15. -/
def convertVolume (volume : ℕ) : ℚ :=
  let clamped := clampNat volume 0 15
  if clamped = 0 then 0 else (clamped : ℚ) / 15

/-- `isNoteToken`: a letter A–G or R (the body is upper-cased beforehand). -/
def isNoteTokenChar (c : Char) : Bool :=
  ('A' ≤ c && c ≤ 'G') || c = 'R'

/-- Digit test used by `readNumber` (`char < '0' || char > '9'` breaks). -/
def isDigitChar (c : Char) : Bool :=
  '0' ≤ c && c ≤ '9'

/-- `Number.parseInt` on a non-empty digit string. -/
def digitsToNat (ds : List Char) : ℕ :=
  ds.foldl (fun a c => a * 10 + (c.toNat - '0'.toNat)) 0

/-- `readNumber` from the parser source: read consecutive digits; `none` when
there are none.  Returns the value and the remaining characters. -/
def readNumber (cs : List Char) : Option ℕ × List Char :=
  let ds := cs.takeWhile isDigitChar
  let rest := cs.dropWhile isDigitChar
  if ds.isEmpty then (none, rest) else (some (digitsToNat ds), rest)

/-- `readLength`: `readNumber` clamped to [1,64]. -/
def readLength (cs : List Char) : Option ℕ × List Char :=
  let r := readNumber cs
  match r.1 with
  | none => (none, r.2)
  | some v => (some (clampNat v 1 64), r.2)

/-- `readDot`: a leading `.` marks a dotted note. -/
def readDot (cs : List Char) : Bool × List Char :=
  match cs with
  | '.' :: rest => (true, rest)
  | _ => (false, cs)

/-- The running state of `parseLine`: tempo, octave, volume and default note
length, with the source defaults 120 / 4 / 12 / 4. -/
structure ParseState where
  tempo : ℕ
  octave : ℕ
  volume : ℕ
  defaultLength : ℕ
deriving DecidableEq, Repr

/-- The initial `parseLine` state. -/
def initParseState : ParseState := ⟨120, 4, 12, 4⟩

/-- `parseNote` from the parser source (lines 162–233), given the note letter
and the characters after it: R emits the REST sentinel; otherwise `+`/`-`
become the accidental `#`/`B`, then optional length digits and optional dot.
The pitch string is `letter ++ accidental ++ octave`.  The source's
`parsed.note` is never `null`, so an event is always produced.
`readAccidental` is the accidental step factored out. -/
def readAccidental (rest : List Char) : List Char × List Char :=
  match rest with
  | '+' :: r2 => (['#'], r2)
  | '-' :: r2 => (['B'], r2)
  | _ => ([], rest)

/-- See `parseNoteTok`. -/
def parseNoteTok (name : String) (letter : Char) (rest : List Char) (st : ParseState) : NoteEvent × List Char :=
  if letter = 'R' then
    let fig := readLength rest
    let dot := readDot fig.2
    let lengthValue := fig.1.getD st.defaultLength
    (⟨name, "REST", computeDuration st.tempo lengthValue dot.1, convertVolume st.volume⟩, dot.2)
  else
    let acc := readAccidental rest
    let fig := readLength acc.2
    let dot := readDot fig.2
    let lengthValue := fig.1.getD st.defaultLength
    (⟨name, String.mk (letter :: acc.1) ++ toString st.octave,
      computeDuration st.tempo lengthValue dot.1, convertVolume st.volume⟩, dot.2)

/-- The scanning loop of `parseLine` (lines 68–152), fuel-indexed: every
iteration consumes at least one character, so fuel = number of characters is
exactly enough (`parseLineGoFuel` below proves fuel-irrelevance beyond that).
Whitespace is skipped; `T`/`O`/`V`/`L` update the running state through
`clampNumber`; `>`/`<` move the octave; note letters and `R` emit events;
anything else is skipped. -/
def parseLineGo (name : String) : ℕ → List Char → ParseState → List NoteEvent
  | 0, _, _ => []
  | _ + 1, [], _ => []
  | fuel + 1, c :: rest, st =>
    if c = ' ' || c = '\t' || c = '\n' then
      parseLineGo name fuel rest st
    else if c = 'T' then
      let r := readNumber rest
      parseLineGo name fuel r.2 { st with tempo := clampNat (r.1.getD 120) 40 200 }
    else if c = 'O' then
      let r := readNumber rest
      parseLineGo name fuel r.2 { st with octave := clampNat (r.1.getD 4) 1 7 }
    else if c = 'V' then
      let r := readNumber rest
      parseLineGo name fuel r.2 { st with volume := clampNat (r.1.getD 12) 0 15 }
    else if c = 'L' then
      let r := readNumber rest
      parseLineGo name fuel r.2 { st with defaultLength := clampNat (r.1.getD 4) 1 64 }
    else if c = '>' then
      parseLineGo name fuel rest { st with octave := clampNat (st.octave + 1) 1 7 }
    else if c = '<' then
      parseLineGo name fuel rest { st with octave := clampNat (st.octave - 1) 1 7 }
    else if isNoteTokenChar c then
      let p := parseNoteTok name c rest st
      p.1 :: parseLineGo name fuel p.2 st
    else
      parseLineGo name fuel rest st

/-- `parseLine`: run the loop with fresh default state. -/
def parseLine (name : String) (line : List Char) : List NoteEvent :=
  parseLineGo name line.length line initParseState

/-- JavaScript `String.prototype.trim` whitespace (ASCII part). -/
def isSpaceChar (c : Char) : Bool :=
  c = ' ' || c = '\t' || c = '\n' || c = '\r'

/-- `trim` on a character list. -/
def trimList (cs : List Char) : List Char :=
  ((cs.dropWhile isSpaceChar).reverse.dropWhile isSpaceChar).reverse

/-- `String.prototype.startsWith`. -/
def startsWithList : List Char → List Char → Bool
  | _, [] => true
  | [], _ :: _ => false
  | c :: cs, p :: ps => c = p && startsWithList cs ps

/-- `String.prototype.split(',')`. -/
def splitComma : List Char → List (List Char)
  | [] => [[]]
  | c :: rest =>
    if c = ',' then [] :: splitComma rest
    else
      match splitComma rest with
      | s :: ss => (c :: s) :: ss
      | [] => [[c]]

/-- The body of a well-delimited score: upper-cased trimmed input with the
4-character `MML@` head and the trailing `;` removed
(`upperCased.slice(MML_PREFIX.length, -MML_SUFFIX.length)`). -/
def bodyOf (mml : String) : List Char :=
  (((trimList mml.toList).map Char.toUpper).drop 4).dropLast

/-- The staffs of a score: the body split on commas, each trimmed, blank ones
dropped (`body.split(',').map(trim).filter(length > 0)`). -/
def staffsOf (mml : String) : List (List Char) :=
  ((splitComma (bodyOf mml)).map trimList).filter (fun l => !l.isEmpty)

/-- `mmlToNote` from the parser source (lines 26–59): trim; empty input gives
an empty result; the upper-cased input must start with `MML@` and end with
`;` (FormatError otherwise); parse each staff with fresh state, keeping only
staffs that produced at least one event (`if (notesForLine.length > 0)`). -/
def mmlToNote (mml : String) (name : String) : Except JsError (List (List NoteEvent)) :=
  if (trimList mml.toList).isEmpty then .ok []
  else if !startsWithList ((trimList mml.toList).map Char.toUpper) ['M', 'M', 'L', '@'] then
    .error .formatError
  else if !(((trimList mml.toList).map Char.toUpper).getLast? = some ';') then
    .error .formatError
  else
    .ok ((staffsOf mml).foldl
      (fun acc line =>
        if (parseLine name line).isEmpty then acc else acc ++ [parseLine name line]) [])

/-! ## Pitch converter (`noteToFrequency`, `src/src/composables/note-to-frequency.ts`) -/

/-- `note.trim().toLowerCase()`. -/
def normalizeNote (s : String) : List Char :=
  (trimList s.toList).map Char.toLower

/-- The regular expression match of the source,
`normalized.match(/^([a-g])([#b]?)(\d+)$/)`: returns the letter, the
accidental group (empty, `#` or `b`) and the non-empty digit group. -/
def matchNote : List Char → Option (Char × List Char × List Char)
  | [] => none
  | c :: rest =>
    if 'a' ≤ c && c ≤ 'g' then
      match rest with
      | [] => none
      | a :: r2 =>
        if a = '#' || a = 'b' then
          if !r2.isEmpty && r2.all isDigitChar then some (c, [a], r2) else none
        else if rest.all isDigitChar then some (c, [], rest) else none
    else none

/-- The `semitoneMap` of the source (C=0, D=2, E=4, F=5, G=7, A=9, B=11);
total on the letters the match allows, so the `undefined` branch of the
source is unreachable. -/
def semitoneOffset (c : Char) : ℤ :=
  if c = 'c' then 0
  else if c = 'd' then 2
  else if c = 'e' then 4
  else if c = 'f' then 5
  else if c = 'g' then 7
  else if c = 'a' then 9
  else 11

/-- The accidental adjustment: `+1` for `#`, `-1` for `b`. -/
def accidentalAdjust (a : List Char) : ℤ :=
  if a = ['#'] then 1 else if a = ['b'] then -1 else 0

/-- The semitone distance from C4 computed by the source
(`semitoneOffset + (octave - 4) * 12`), or a FormatError when the string does
not match the pattern.  `Number.parseInt` never yields `NaN` on the matched
digit group, so that throw site is unreachable. -/
def noteDistance (s : String) : Except JsError ℤ :=
  match matchNote (normalizeNote s) with
  | none => .error .formatError
  | some (c, a, ds) =>
    .ok (semitoneOffset c + accidentalAdjust a + ((digitsToNat ds : ℤ) - 4) * 12)

/-- The unrounded frequency `440 * 2 ^ (distance / 12)` of the source. -/
noncomputable def rawFreq (d : ℤ) : ℝ :=
  440 * (2 : ℝ) ^ ((d : ℝ) / 12)

/-- `Math.round(frequency * 100) / 100` of the source; `Math.round` is
`⌊x + 1/2⌋` on the positive values that occur.  The result is rational. -/
noncomputable def roundFreq (d : ℤ) : ℚ :=
  ((⌊rawFreq d * 100 + 1 / 2⌋ : ℤ) : ℚ) / 100

/-- `noteToFrequency` from `src/src/composables/note-to-frequency.ts`
(lines 9–50). -/
noncomputable def noteToFrequency (s : String) : Except JsError ℚ :=
  (noteDistance s).map roundFreq

/-- Spec-side pattern (spec §4.1 as amended): a letter a–g, an optional `#` or
`b` accidental, then a non-empty run of digits. -/
def validNotePattern (cs : List Char) : Prop :=
  ∃ c a ds, cs = c :: a ++ ds ∧ ('a' ≤ c ∧ c ≤ 'g') ∧
    (a = [] ∨ a = ['#'] ∨ a = ['b']) ∧ ds ≠ [] ∧ ∀ d ∈ ds, isDigitChar d

/-- Boolean form of `validTrack`, used where a computable predicate is needed. -/
def validTrackB (track : List NoteEvent) : Bool :=
  track.all fun e => decide (0 < e.duration)

/-- Invariant on the running parser state: tempo in [40,200], volume in
[0,15], default length in [1,64] (all maintained by the `clampNumber` calls
of the source; the octave plays no role in duration or volume). -/
def stInv (st : ParseState) : Prop :=
  40 ≤ st.tempo ∧ st.tempo ≤ 200 ∧ st.volume ≤ 15 ∧
    1 ≤ st.defaultLength ∧ st.defaultLength ≤ 64

/-- A well-delimited score string: non-empty after trimming, the upper-cased
text starts with `MML@` and ends with `;` (the two delimiter checks of
`mmlToNote`). -/
def wellDelimited (mml : String) : Prop :=
  trimList mml.toList ≠ [] ∧
    startsWithList ((trimList mml.toList).map Char.toUpper) ['M', 'M', 'L', '@'] = true ∧
    ((trimList mml.toList).map Char.toUpper).getLast? = some ';'

instance (mml : String) : Decidable (wellDelimited mml) := by
  unfold wellDelimited; infer_instance

/-! ## Helper lemmas -/

theorem validTrackB_eq_true_iff (track : List NoteEvent) :
    validTrackB track = true ↔ validTrack track := by
  simp [validTrackB, validTrack]

theorem foldl_erase_self (l : List ℕ) (h : l.Nodup) :
    List.foldl (fun ns n => ns.erase n) l l = [] := by
  induction l with
  | nil => rfl
  | cons a l ih =>
    have step : (a :: l).erase a = l := List.erase_cons_head a l
    simp only [List.foldl_cons, step]
    exact ih (List.Nodup.of_cons h)

/-- **C9.** Calling global stop (`stopMml`) twice in succession never throws
(the model is a total function: every audio call of the source sits inside
`try`/`catch`), and the voice registry `activeNodes` is empty immediately
after each of the two calls, whatever voices were registered before the
first call. -/
theorem stopMml_idempotent_empty (s : StopState) (h : s.activeNodes.Nodup) :
    (stopMml s).activeNodes = [] ∧ (stopMml (stopMml s)).activeNodes = [] := by
  have h1 : (stopMml s).activeNodes = [] := foldl_erase_self _ h
  refine ⟨h1, ?_⟩
  show List.foldl (fun ns n => ns.erase n) (stopMml s).activeNodes (stopMml s).activeNodes = []
  rw [h1]
  rfl

theorem stopMml_idempotent_empty_witness :
    (([3, 1, 4] : List ℕ).Nodup) ∧
      (stopMml ⟨[3, 1, 4], [], 0⟩).activeNodes = [] ∧
      (stopMml (stopMml ⟨[3, 1, 4], [], 0⟩)).activeNodes = [] :=
  ⟨by decide, stopMml_idempotent_empty ⟨[3, 1, 4], [], 0⟩ (by decide)⟩

/-- **C4 (counterexample).** The claim says the fade window is clamped to at
most half the note's duration, so for a note shorter than 20 ms the fade-in
would never extend past the stop time.  For a 5 ms voice (`d = 1/200` s)
starting at 0 the source schedules the fade-in ramp at `0.01` s, past the
stop time `0.005` s: the fade constant is not clamped
(`src/src/play-sample.ts` line 244). -/
theorem scheduleGainEnvelope_unclamped_counterexample :
    scheduleGainEnvelope 0 (1 / 200) 1 =
      [GainEvent.cancel 0, GainEvent.setValue 0 0,
       GainEvent.linearRamp 1 (1 / 100), GainEvent.linearRamp 0 (0 + 1 / 200)] ∧
      ((0 : ℚ) + 1 / 200 < 1 / 100) ∧
      ¬ ((1 / 100 : ℚ) ≤ (1 / 200) / 2) := by
  refine ⟨?_, by norm_num, by norm_num⟩
  have hmax : max (0 : ℚ) (0 + 1 / 200 - 1 / 100) = 0 := by
    rw [max_eq_left]
    norm_num
  simp only [scheduleGainEnvelope, defaultFadeDuration, hmax]
  rw [if_pos (by norm_num : (0 : ℚ) < 1 / 100)]
  rw [if_neg (by norm_num : ¬ ((0 : ℚ) + 1 / 100 < 0))]
  rw [if_pos (by norm_num : (0 : ℚ) < 1 / 100)]
  norm_num

/-- **C4 (amended).** The fade window of `scheduleGainEnvelope` is the fixed
constant `DEFAULT_FADE_DURATION = 0.01` s, not clamped to half the duration.
For every voice with duration strictly greater than 20 ms the automation is:
value 0 at the start, linear ramp to the target gain over the 10 ms window,
hold at the target until 10 ms before the stop time, and a symmetric ramp
back to 0 ending exactly at the stop time.  For every voice, of any duration,
the final command is the ramp to 0 ending exactly at start + duration. -/
theorem scheduleGainEnvelope_shape :
    (∀ s d g : ℚ, 1 / 50 < d →
      scheduleGainEnvelope s d g =
        [GainEvent.cancel s, GainEvent.setValue 0 s,
         GainEvent.linearRamp g (s + 1 / 100),
         GainEvent.setValue g (s + d - 1 / 100),
         GainEvent.linearRamp 0 (s + d)]) ∧
    (∀ s d g : ℚ, ∃ pre, scheduleGainEnvelope s d g =
      pre ++ [GainEvent.linearRamp 0 (s + d)]) := by
  constructor
  · intro s d g h
    have hmax : max s (s + d - (1 / 100 : ℚ)) = s + d - 1 / 100 := by
      rw [max_eq_right]
      linarith
    simp only [scheduleGainEnvelope, defaultFadeDuration, hmax]
    rw [if_pos (by norm_num : (0 : ℚ) < 1 / 100)]
    rw [if_pos (show s + 1 / 100 < s + d - 1 / 100 by linarith)]
    rw [if_pos (by norm_num : (0 : ℚ) < 1 / 100)]
    rfl
  · intro s d g
    have h01 : (0 : ℚ) < defaultFadeDuration := by norm_num [defaultFadeDuration]
    simp only [scheduleGainEnvelope, if_pos h01]
    exact ⟨_, rfl⟩

theorem scheduleGainEnvelope_shape_witness :
    ((1 / 50 : ℚ) < 1) ∧
      scheduleGainEnvelope 0 1 (9 / 10) =
        [GainEvent.cancel 0, GainEvent.setValue 0 0,
         GainEvent.linearRamp (9 / 10) (0 + 1 / 100),
         GainEvent.setValue (9 / 10) (0 + 1 - 1 / 100),
         GainEvent.linearRamp 0 (0 + 1)] :=
  ⟨by norm_num, scheduleGainEnvelope_shape.1 0 1 (9 / 10) (by norm_num)⟩

theorem withIdx_shift (l : List NoteEvent) (n : ℕ) :
    withIdx (n + 1) l = (withIdx n l).map (fun p => (p.1 + 1, p.2)) := by
  induction l generalizing n with
  | nil => rfl
  | cons a l ih => simp [withIdx, ih]

theorem precedingSeconds_zero (t : List NoteEvent) : precedingSeconds t 0 = 0 := by
  simp [precedingSeconds]

theorem precedingSeconds_cons (n : NoteEvent) (rest : List NoteEvent) (i : ℕ) :
    precedingSeconds (n :: rest) (i + 1) = n.duration / 1000 + precedingSeconds rest i := by
  simp only [precedingSeconds, List.take_succ_cons, List.map_cons, List.sum_cons]
  ring

theorem buildQueueGo_eq_specPairs (base : ℚ) (t : List NoteEvent) (h : validTrack t) :
    ∀ acc, buildQueueGo base t acc =
      .ok ((withIdx 0 t).filterMap fun p =>
        if isRestNote p.2.note then none
        else some (p.2, ⟨base, acc + precedingSeconds t p.1⟩)) := by
  induction t with
  | nil => intro acc; rfl
  | cons n rest ih =>
    intro acc
    have hd : ¬ n.duration ≤ 0 := not_le.mpr (h n (by simp))
    have hrest : validTrack rest := fun e he => h e (by simp [he])
    simp only [buildQueueGo, if_neg hd, ih hrest (acc + n.duration / 1000)]
    have hshift : (withIdx 1 rest).filterMap
        (fun p => if isRestNote p.2.note then none
          else some (p.2, (⟨base, acc + precedingSeconds (n :: rest) p.1⟩ : PlaybackTiming))) =
        (withIdx 0 rest).filterMap
        (fun p => if isRestNote p.2.note then none
          else some (p.2, ⟨base, acc + n.duration / 1000 + precedingSeconds rest p.1⟩)) := by
      rw [show (1 : ℕ) = 0 + 1 from rfl, withIdx_shift, List.filterMap_map]
      refine List.filterMap_congr fun p _ => ?_
      by_cases hr : isRestNote p.2.note = true
      · simp [hr]
      · simp only [Function.comp_apply, Bool.not_eq_true] at *
        rw [if_neg (by simp [hr]), if_neg (by simp [hr])]
        rw [precedingSeconds_cons]
        congr 2
        ring
    by_cases hr : isRestNote n.note = true
    · simp [withIdx, List.filterMap_cons, hr, hshift]
      rfl
    · simp only [Bool.not_eq_true] at hr
      simp [withIdx, List.filterMap_cons, hr, hshift, precedingSeconds_zero]
      rfl

theorem buildPlaybackQueue_eq_specPairs (base : ℚ) (t : List NoteEvent) (h : validTrack t) :
    buildPlaybackQueue t base = .ok (specPairs base t) := by
  rw [buildPlaybackQueue, buildQueueGo_eq_specPairs base t h 0, specPairs]
  congr 1
  refine List.filterMap_congr fun p _ => ?_
  by_cases hr : isRestNote p.2.note = true <;> simp [hr]

theorem buildQueueGo_error (base : ℚ) (t : List NoteEvent) (h : ¬ validTrack t) :
    ∀ acc, buildQueueGo base t acc = .error .rangeError := by
  induction t with
  | nil => exact absurd (by intro e he; simp at he) h
  | cons n rest ih =>
    intro acc
    by_cases hd : n.duration ≤ 0
    · simp [buildQueueGo, hd]
    · have hrest : ¬ validTrack rest := by
        intro hr
        exact h (by
          intro e he
          rcases List.mem_cons.mp he with rfl | hm
          · exact lt_of_not_le hd
          · exact hr e hm)
      simp only [buildQueueGo, if_neg hd, ih hrest]
      rfl

theorem playMmlRun_valid (base : ℚ) (tracks : List (List NoteEvent))
    (h : ∀ t ∈ tracks, validTrack t) :
    playMmlRun base tracks = ((tracks.map (specPairs base)).flatten, false) := by
  induction tracks with
  | nil => rfl
  | cons t rest ih =>
    have hrest := fun u hu => h u (List.mem_cons_of_mem t hu)
    by_cases he : t.isEmpty
    · have ht : t = [] := List.isEmpty_iff.mp he
      simp [playMmlRun, he, ih hrest, ht, specPairs, withIdx]
    · simp [playMmlRun, he, ih hrest,
        buildPlaybackQueue_eq_specPairs base t (h t (List.mem_cons_self t rest))]

theorem playMmlRun_invalid (base : ℚ) (tracks : List (List NoteEvent))
    (h : ∃ t ∈ tracks, ¬ validTrack t) :
    playMmlRun base tracks =
      (((tracks.takeWhile validTrackB).map (specPairs base)).flatten, true) := by
  induction tracks with
  | nil => simp at h
  | cons t rest ih =>
    by_cases hv : validTrack t
    · have hb : validTrackB t = true := (validTrackB_eq_true_iff t).mpr hv
      have hrest : ∃ u ∈ rest, ¬ validTrack u := by
        rcases h with ⟨u, hu, hnv⟩
        rcases List.mem_cons.mp hu with rfl | hm
        · exact absurd hv hnv
        · exact ⟨u, hm, hnv⟩
      rw [List.takeWhile_cons_of_pos hb]
      by_cases he : t.isEmpty
      · have ht : t = [] := List.isEmpty_iff.mp he
        simp [playMmlRun, he, ih hrest, ht, specPairs, withIdx]
      · simp [playMmlRun, he, ih hrest, buildPlaybackQueue_eq_specPairs base t hv]
    · have hb : validTrackB t = false := by
        rcases Bool.eq_false_or_eq_true (validTrackB t) with htr | hf
        · exact absurd ((validTrackB_eq_true_iff t).mp htr) hv
        · exact hf
      have hne : ¬ t.isEmpty := by
        intro he
        exact hv (by rw [List.isEmpty_iff.mp he]; intro e he'; simp at he')
      rw [List.takeWhile_cons_of_neg (by simp [hb])]
      simp [playMmlRun, hne, buildPlaybackQueue, buildQueueGo_error base t hv 0]

theorem specPairs_contextTime (base : ℚ) (t : List NoteEvent) :
    ∀ p ∈ specPairs base t, p.2.contextTime = base := by
  intro p hp
  rcases List.mem_filterMap.mp hp with ⟨a, _, ha⟩
  by_cases hr : isRestNote a.2.note = true
  · simp [hr] at ha
  · simp only [Bool.not_eq_true] at hr
    simp only [hr, if_neg Bool.false_ne_true, Option.some.injEq] at ha
    subst ha
    rfl

/-- **C2.** When every event of every track has a positive (finite) duration,
`playMml` emits, per track, one (event, timing) pair for each non-REST event
in parsed order, with delay the cumulative duration in seconds of all
preceding events of that track (RESTs accumulate but are not emitted), no
error, and every emitted pair carries the same base context time captured
once per call. -/
theorem playMml_schedules_specPairs (base : ℚ) (tracks : List (List NoteEvent))
    (h : ∀ t ∈ tracks, validTrack t) :
    playMmlRun base tracks = ((tracks.map (specPairs base)).flatten, false) ∧
      ∀ p ∈ (playMmlRun base tracks).1, p.2.contextTime = base := by
  refine ⟨playMmlRun_valid base tracks h, ?_⟩
  intro p hp
  rw [playMmlRun_valid base tracks h] at hp
  rcases List.mem_flatten.mp hp with ⟨l, hl, hpl⟩
  rcases List.mem_map.mp hl with ⟨t, _, rfl⟩
  exact specPairs_contextTime base t p hpl

theorem playMml_schedules_specPairs_witness :
    (∀ t ∈ [[(⟨"x", "REST", 500, 1⟩ : NoteEvent), ⟨"x", "C4", 250, 1⟩]], validTrack t) ∧
      (playMmlRun 10 [[(⟨"x", "REST", 500, 1⟩ : NoteEvent), ⟨"x", "C4", 250, 1⟩]] =
        (([[(⟨"x", "REST", 500, 1⟩ : NoteEvent), ⟨"x", "C4", 250, 1⟩]].map (specPairs 10)).flatten,
          false) ∧
        ∀ p ∈ (playMmlRun 10 [[(⟨"x", "REST", 500, 1⟩ : NoteEvent), ⟨"x", "C4", 250, 1⟩]]).1,
          p.2.contextTime = 10) :=
  ⟨by decide, playMml_schedules_specPairs 10 _ (by decide)⟩

/-- **C3 (counterexample).** Scheduling is not all-or-nothing across the whole
call: with a valid first track and an invalid duration in the second track,
the call throws `RangeError`, yet the first track's event has already been
handed to `playSample` (the emitted call list is non-empty). -/
theorem playMml_partial_scheduling_counterexample :
    (playMmlRun 0 [[⟨"x", "C4", 500, 1⟩], [⟨"x", "C4", -1, 1⟩]]).2 = true ∧
      (playMmlRun 0 [[⟨"x", "C4", 500, 1⟩], [⟨"x", "C4", -1, 1⟩]]).1 ≠ [] := by
  with_unfolding_all decide

/-- **C3 (amended).** If any event of any track has a non-positive (in the
source: non-finite or non-positive) duration, the call throws a `RangeError`,
and the `playSample` calls that have happened are exactly those of the
longest prefix of tracks that are entirely valid: validation is all-or-nothing
per track (no event of the offending track or of any later track is
scheduled), but tracks preceding the first invalid one have already been
scheduled in full. -/
theorem playMml_failfast_per_track (base : ℚ) (tracks : List (List NoteEvent))
    (h : ∃ t ∈ tracks, ¬ validTrack t) :
    (playMmlRun base tracks).2 = true ∧
      (playMmlRun base tracks).1 =
        ((tracks.takeWhile validTrackB).map (specPairs base)).flatten := by
  rw [playMmlRun_invalid base tracks h]
  exact ⟨rfl, rfl⟩

theorem playMml_failfast_per_track_witness :
    (∃ t ∈ [[(⟨"x", "C4", 500, 1⟩ : NoteEvent)], [⟨"x", "C4", -1, 1⟩]], ¬ validTrack t) ∧
      ((playMmlRun 0 [[(⟨"x", "C4", 500, 1⟩ : NoteEvent)], [⟨"x", "C4", -1, 1⟩]]).2 = true ∧
        (playMmlRun 0 [[(⟨"x", "C4", 500, 1⟩ : NoteEvent)], [⟨"x", "C4", -1, 1⟩]]).1 =
          (([[(⟨"x", "C4", 500, 1⟩ : NoteEvent)], [⟨"x", "C4", -1, 1⟩]].takeWhile
            validTrackB).map (specPairs 0)).flatten) :=
  ⟨⟨[⟨"x", "C4", -1, 1⟩], by decide⟩, playMml_failfast_per_track 0 _ ⟨[⟨"x", "C4", -1, 1⟩], by decide⟩⟩

theorem clampNat_le (v lo hi : ℕ) (h : lo ≤ hi) :
    lo ≤ clampNat v lo hi ∧ clampNat v lo hi ≤ hi := by
  unfold clampNat
  split_ifs with h1 h2 <;> omega

theorem clampNat_eq_self (v lo hi : ℕ) (h1 : lo ≤ v) (h2 : v ≤ hi) :
    clampNat v lo hi = v := by
  unfold clampNat
  split_ifs <;> omega

theorem clampQ_mem (v lo hi : ℚ) (h : lo ≤ hi) :
    lo ≤ clampQ v lo hi ∧ clampQ v lo hi ≤ hi := by
  unfold clampQ
  split_ifs with h1 h2
  · exact ⟨le_refl lo, h⟩
  · exact ⟨h, le_refl hi⟩
  · exact ⟨le_of_not_lt h1, le_of_not_lt h2⟩

theorem clampQ_eq_self (v lo hi : ℚ) (h1 : lo ≤ v) (h2 : v ≤ hi) :
    clampQ v lo hi = v := by
  unfold clampQ
  split_ifs with g1 g2
  · exact absurd h1 (not_le.mpr g1)
  · exact absurd h2 (not_le.mpr g2)
  · rfl

theorem computeDuration_eq_of_bounds (tempo length : ℕ) (dot : Bool)
    (ht1 : 40 ≤ tempo) (ht2 : tempo ≤ 200) (hl1 : 1 ≤ length) (hl2 : length ≤ 64) :
    computeDuration tempo length dot =
      60000 / (tempo : ℚ) * (4 / (length : ℚ)) * (if dot then 3 / 2 else 1) := by
  have e1 : clampQ (tempo : ℚ) 40 200 = (tempo : ℚ) :=
    clampQ_eq_self _ _ _ (by exact_mod_cast ht1) (by exact_mod_cast ht2)
  have e2 : clampQ (length : ℚ) 1 64 = (length : ℚ) :=
    clampQ_eq_self _ _ _ (by exact_mod_cast hl1) (by exact_mod_cast hl2)
  unfold computeDuration
  rw [e1, e2]
  cases dot <;> simp

theorem convertVolume_eq (v : ℕ) (h : v ≤ 15) :
    convertVolume v = if v = 0 then 0 else (v : ℚ) / 15 := by
  unfold convertVolume
  rw [clampNat_eq_self v 0 15 (Nat.zero_le v) h]

theorem computeDuration_bounds (tempo length : ℕ) (dot : Bool) :
    75 / 4 ≤ computeDuration tempo length dot ∧ computeDuration tempo length dot ≤ 9000 := by
  unfold computeDuration
  obtain ⟨ht1, ht2⟩ := clampQ_mem (tempo : ℚ) 40 200 (by norm_num)
  obtain ⟨hl1, hl2⟩ := clampQ_mem (length : ℚ) 1 64 (by norm_num)
  set t := clampQ (tempo : ℚ) 40 200 with hts
  set l := clampQ (length : ℚ) 1 64 with hls
  have ht0 : (0 : ℚ) < t := lt_of_lt_of_le (by norm_num) ht1
  have hl0 : (0 : ℚ) < l := lt_of_lt_of_le (by norm_num) hl1
  have hb : 60000 / t * (4 / l) = 240000 / (t * l) := by
    rw [div_mul_div_comm]
    norm_num
  have htl1 : 40 ≤ t * l := by nlinarith
  have htl2 : t * l ≤ 12800 := by nlinarith
  have htl0 : (0 : ℚ) < t * l := by positivity
  have hlow : (75 : ℚ) / 4 ≤ 240000 / (t * l) := by
    rw [div_le_div_iff (by norm_num) htl0]
    nlinarith
  have hhigh : (240000 : ℚ) / (t * l) ≤ 6000 := by
    rw [div_le_iff htl0]
    nlinarith
  cases dot <;> simp only [hb, if_true, if_false, Bool.false_eq_true, ite_false, ite_true]
  · exact ⟨hlow, le_trans hhigh (by norm_num)⟩
  · constructor
    · nlinarith
    · nlinarith

theorem readLength_bounds (cs : List Char) (v : ℕ) (h : (readLength cs).1 = some v) :
    1 ≤ v ∧ v ≤ 64 := by
  simp only [readLength] at h
  rcases hr : (readNumber cs).1 with _ | u
  · rw [hr] at h
    simp at h
  · rw [hr] at h
    simp only [Option.some.injEq] at h
    rw [← h]
    exact clampNat_le u 1 64 (by norm_num)

theorem parseNoteTok_fields (name : String) (c : Char) (rest : List Char) (st : ParseState)
    (hdl : 1 ≤ st.defaultLength ∧ st.defaultLength ≤ 64) :
    ∃ (l : ℕ) (dot : Bool), (1 ≤ l ∧ l ≤ 64) ∧
      (parseNoteTok name c rest st).1.duration = computeDuration st.tempo l dot ∧
      (parseNoteTok name c rest st).1.volume = convertVolume st.volume := by
  unfold parseNoteTok
  split_ifs with hc
  · refine ⟨(readLength rest).1.getD st.defaultLength, (readDot (readLength rest).2).1,
      ?_, rfl, rfl⟩
    rcases hr : (readLength rest).1 with _ | u
    · simpa [hr] using hdl
    · simpa [hr] using readLength_bounds rest u hr
  · refine ⟨(readLength (readAccidental rest).2).1.getD st.defaultLength,
      (readDot (readLength (readAccidental rest).2).2).1, ?_, rfl, rfl⟩
    rcases hr : (readLength (readAccidental rest).2).1 with _ | u
    · simpa [hr] using hdl
    · simpa [hr] using readLength_bounds _ u hr

theorem parseLineGo_events (name : String) :
    ∀ (fuel : ℕ) (cs : List Char) (st : ParseState), stInv st →
      ∀ e ∈ parseLineGo name fuel cs st,
        ∃ (t : ℕ) (l : ℕ) (dot : Bool) (v : ℕ),
          (40 ≤ t ∧ t ≤ 200) ∧ (1 ≤ l ∧ l ≤ 64) ∧ v ≤ 15 ∧
          e.duration = computeDuration t l dot ∧ e.volume = convertVolume v := by
  intro fuel
  induction fuel with
  | zero =>
    intro cs st _ e he
    simp [parseLineGo] at he
  | succ n ih =>
    intro cs st hst e he
    match cs with
    | [] => simp [parseLineGo] at he
    | c :: rest =>
      simp only [parseLineGo] at he
      split_ifs at he with h1 h2 h3 h4 h5 h6 h7 h8
      · exact ih rest st hst e he
      · refine ih _ _ ?_ e he
        exact ⟨(clampNat_le _ 40 200 (by norm_num)).1, (clampNat_le _ 40 200 (by norm_num)).2,
          hst.2.2.1, hst.2.2.2.1, hst.2.2.2.2⟩
      · refine ih _ _ ?_ e he
        exact ⟨hst.1, hst.2.1, hst.2.2.1, hst.2.2.2.1, hst.2.2.2.2⟩
      · refine ih _ _ ?_ e he
        exact ⟨hst.1, hst.2.1, (clampNat_le _ 0 15 (by norm_num)).2, hst.2.2.2.1, hst.2.2.2.2⟩
      · refine ih _ _ ?_ e he
        exact ⟨hst.1, hst.2.1, hst.2.2.1, (clampNat_le _ 1 64 (by norm_num)).1,
          (clampNat_le _ 1 64 (by norm_num)).2⟩
      · refine ih _ _ ?_ e he
        exact ⟨hst.1, hst.2.1, hst.2.2.1, hst.2.2.2.1, hst.2.2.2.2⟩
      · refine ih _ _ ?_ e he
        exact ⟨hst.1, hst.2.1, hst.2.2.1, hst.2.2.2.1, hst.2.2.2.2⟩
      · rcases List.mem_cons.mp he with rfl | hm
        · obtain ⟨l, dot, hl, hd, hv⟩ :=
            parseNoteTok_fields name c rest st ⟨hst.2.2.2.1, hst.2.2.2.2⟩
          exact ⟨st.tempo, l, dot, st.volume, ⟨hst.1, hst.2.1⟩, hl, hst.2.2.1, hd, hv⟩
        · exact ih _ _ hst e hm
      · exact ih rest st hst e he

theorem foldl_keepNonempty (name : String) :
    ∀ (l : List (List Char)) (acc : List (List NoteEvent)),
      l.foldl (fun acc line =>
          if (parseLine name line).isEmpty then acc else acc ++ [parseLine name line]) acc
        = acc ++ (l.map (parseLine name)).filter (fun t => !t.isEmpty) := by
  intro l
  induction l with
  | nil => intro acc; simp
  | cons x l ih =>
    intro acc
    simp only [List.foldl_cons]
    by_cases he : (parseLine name x).isEmpty
    · rw [if_pos he, ih acc, List.map_cons, List.filter_cons_of_neg (by simp [he])]
    · rw [if_neg he, ih (acc ++ [parseLine name x]), List.map_cons,
        List.filter_cons_of_pos (by simp [he])]
      simp

theorem mmlToNote_ok_eq (mml name : String) (h : wellDelimited mml) :
    mmlToNote mml name =
      .ok (((staffsOf mml).map (parseLine name)).filter (fun t => !t.isEmpty)) := by
  obtain ⟨h1, h2, h3⟩ := h
  have c1 : ¬ ((trimList mml.toList).isEmpty = true) := fun hh => h1 (by simpa using hh)
  unfold mmlToNote
  rw [if_neg c1, if_neg (show ¬ _ by rw [h2]; decide),
    if_neg (show ¬ _ by rw [h3]; decide)]
  rw [foldl_keepNonempty name (staffsOf mml) []]
  simp

theorem mmlToNote_track_shape (mml name : String) (tracks : List (List NoteEvent))
    (h : mmlToNote mml name = .ok tracks) :
    ∀ t ∈ tracks, ∃ line, t = parseLine name line := by
  unfold mmlToNote at h
  split_ifs at h with c1 c2 c3 <;>
    first
      | (exfalso; exact Except.noConfusion h)
      | (simp only [Except.ok.injEq] at h
         rw [← h]
         intro t ht
         exact absurd ht (List.not_mem_nil t))
      | (simp only [Except.ok.injEq] at h
         rw [← h, foldl_keepNonempty name (staffsOf mml) []]
         intro t ht
         simp only [List.nil_append] at ht
         rcases List.mem_map.mp (List.mem_of_mem_filter ht) with ⟨line, _, rfl⟩
         exact ⟨line, rfl⟩)

theorem stInv_init : stInv initParseState := by
  norm_num [stInv, initParseState]

theorem rawFreq_pos (d : ℤ) : 0 < rawFreq d := by
  unfold rawFreq
  have := Real.rpow_pos_of_pos (show (0 : ℝ) < 2 by norm_num) ((d : ℝ) / 12)
  nlinarith

theorem rawFreq_add_twelve (d : ℤ) : rawFreq (d + 12) = 2 * rawFreq d := by
  unfold rawFreq
  have he : ((d + 12 : ℤ) : ℝ) / 12 = (d : ℝ) / 12 + 1 := by
    push_cast
    ring
  rw [he, Real.rpow_add (by norm_num : (0 : ℝ) < 2), Real.rpow_one]
  ring

/-- **C10.** Every NoteEvent emitted by the parser (notes and RESTs alike) has
duration in the closed interval [18.75, 9000] milliseconds — the extremes of
the duration formula over tempo clamped to [40,200], length clamped to
[1,64] and the 1.5 dotting factor — so the scheduler's RangeError branch for
non-positive (in the source: non-finite or non-positive) durations is
unreachable on parser output. -/
theorem parser_durations_bounded (mml name : String) (tracks : List (List NoteEvent))
    (h : mmlToNote mml name = .ok tracks) :
    (∀ t ∈ tracks, ∀ e ∈ t, 75 / 4 ≤ e.duration ∧ e.duration ≤ 9000) ∧
      ∀ base : ℚ, (playMmlRun base tracks).2 = false := by
  have hev : ∀ t ∈ tracks, ∀ e ∈ t, 75 / 4 ≤ e.duration ∧ e.duration ≤ 9000 := by
    intro t ht e he
    obtain ⟨line, rfl⟩ := mmlToNote_track_shape mml name tracks h t ht
    obtain ⟨tp, l, dot, v, _, _, _, hd, _⟩ :=
      parseLineGo_events name line.length line initParseState stInv_init e he
    rw [hd]
    exact computeDuration_bounds tp l dot
  refine ⟨hev, fun base => ?_⟩
  have hv : ∀ t ∈ tracks, validTrack t := fun t ht e he =>
    lt_of_lt_of_le (by norm_num) (hev t ht e he).1
  simp [playMmlRun_valid base tracks hv]

theorem parser_durations_bounded_witness :
    (mmlToNote "MML@C;" "x" = .ok [[⟨"x", "C4", 500, 4 / 5⟩]]) ∧
      ((∀ t ∈ [[(⟨"x", "C4", 500, 4 / 5⟩ : NoteEvent)]], ∀ e ∈ t,
          75 / 4 ≤ e.duration ∧ e.duration ≤ 9000) ∧
        ∀ base : ℚ, (playMmlRun base [[(⟨"x", "C4", 500, 4 / 5⟩ : NoteEvent)]]).2 = false) :=
  ⟨by with_unfolding_all decide,
    parser_durations_bounded "MML@C;" "x" _ (by with_unfolding_all decide)⟩

/-- **C8 (counterexample).** The staff `"T120"` of `"MML@T120,C;"` is
non-empty after trimming, yet the parser returns one track, not two: staffs
whose parse produces no events are dropped as well
(`if (notesForLine.length > 0)` in `mmlToNote`). -/
theorem mmlToNote_drops_eventless_staff_counterexample :
    mmlToNote "MML@T120,C;" "x" = .ok [[⟨"x", "C4", 500, 4 / 5⟩]] ∧
      (staffsOf "MML@T120,C;").length = 2 ∧
      ([[(⟨"x", "C4", 500, (4 : ℚ) / 5⟩ : NoteEvent)]] : List (List NoteEvent)).length ≠
        (staffsOf "MML@T120,C;").length := by
  with_unfolding_all decide

/-- **C8 (amended).** For every well-delimited MML string, the parser returns
one Track per comma-separated staff that is non-empty after trimming AND
whose parse yields at least one NoteEvent, in the order the staffs appear in
the body; staffs that are blank after trimming, or that produce no events,
are dropped. -/
theorem mmlToNote_one_track_per_productive_staff (mml name : String) (h : wellDelimited mml) :
    mmlToNote mml name =
      .ok (((staffsOf mml).map (parseLine name)).filter (fun t => !t.isEmpty)) :=
  mmlToNote_ok_eq mml name h

theorem mmlToNote_one_track_per_productive_staff_witness :
    wellDelimited "MML@C;" ∧
      mmlToNote "MML@C;" "x" =
        .ok (((staffsOf "MML@C;").map (parseLine "x")).filter (fun t => !t.isEmpty)) :=
  ⟨by with_unfolding_all decide,
    mmlToNote_one_track_per_productive_staff "MML@C;" "x" (by with_unfolding_all decide)⟩

/-- **C5.** Every NoteEvent emitted by the parser has
`duration_ms = (60000 / tempo) * (4 / length) * (1.5 if dotted else 1)` for
the running (clamped) tempo and effective length, and volume equal to the
running 0–15 volume divided by 15 (volume 0 mapping to exactly 0).  In
particular `"MML@ T120 O4 V12 L4 cdefgab>c;"` with instrument `"piano"`
yields one Track of 8 NoteEvents, each 500 ms with volume 0.8, whose 8th
pitch `"C5"` is one octave (12 semitones, a factor of 2 in raw frequency)
above the first pitch `"C4"`. -/
theorem parser_duration_volume_formula :
    (∀ (mml name : String) (tracks : List (List NoteEvent)),
        mmlToNote mml name = .ok tracks →
        ∀ t ∈ tracks, ∀ e ∈ t,
          ∃ (tempo len : ℕ) (dot : Bool) (vol : ℕ),
            40 ≤ tempo ∧ tempo ≤ 200 ∧ 1 ≤ len ∧ len ≤ 64 ∧ vol ≤ 15 ∧
            e.duration = 60000 / (tempo : ℚ) * (4 / (len : ℚ)) * (if dot then 3 / 2 else 1) ∧
            e.volume = (if vol = 0 then 0 else (vol : ℚ) / 15)) ∧
      mmlToNote "MML@ T120 O4 V12 L4 cdefgab>c;" "piano" =
        .ok [[⟨"piano", "C4", 500, 4 / 5⟩, ⟨"piano", "D4", 500, 4 / 5⟩,
              ⟨"piano", "E4", 500, 4 / 5⟩, ⟨"piano", "F4", 500, 4 / 5⟩,
              ⟨"piano", "G4", 500, 4 / 5⟩, ⟨"piano", "A4", 500, 4 / 5⟩,
              ⟨"piano", "B4", 500, 4 / 5⟩, ⟨"piano", "C5", 500, 4 / 5⟩]] ∧
      noteDistance "C5" = .ok 12 ∧ noteDistance "C4" = .ok 0 ∧
      rawFreq 12 = 2 * rawFreq 0 := by
  refine ⟨?_, by with_unfolding_all decide, by with_unfolding_all decide,
    by with_unfolding_all decide, by simpa using rawFreq_add_twelve 0⟩
  intro mml name tracks h t ht e he
  obtain ⟨line, rfl⟩ := mmlToNote_track_shape mml name tracks h t ht
  obtain ⟨tp, l, dot, v, htp, hl, hv, hd, hvol⟩ :=
    parseLineGo_events name line.length line initParseState stInv_init e he
  refine ⟨tp, l, dot, v, htp.1, htp.2, hl.1, hl.2, hv, ?_, ?_⟩
  · rw [hd]
    exact computeDuration_eq_of_bounds tp l dot htp.1 htp.2 hl.1 hl.2
  · rw [hvol]
    exact convertVolume_eq v hv

theorem parser_duration_volume_formula_witness :
    (mmlToNote "MML@C;" "x" = .ok [[⟨"x", "C4", 500, 4 / 5⟩]]) ∧
      ∃ (tempo len : ℕ) (dot : Bool) (vol : ℕ),
        40 ≤ tempo ∧ tempo ≤ 200 ∧ 1 ≤ len ∧ len ≤ 64 ∧ vol ≤ 15 ∧
        (⟨"x", "C4", 500, 4 / 5⟩ : NoteEvent).duration =
          60000 / (tempo : ℚ) * (4 / (len : ℚ)) * (if dot then 3 / 2 else 1) ∧
        (⟨"x", "C4", 500, 4 / 5⟩ : NoteEvent).volume =
          (if vol = 0 then 0 else (vol : ℚ) / 15) :=
  ⟨by with_unfolding_all decide,
    parser_duration_volume_formula.1 "MML@C;" "x" [[⟨"x", "C4", 500, 4 / 5⟩]]
      (by with_unfolding_all decide) [⟨"x", "C4", 500, 4 / 5⟩]
      (by with_unfolding_all decide) ⟨"x", "C4", 500, 4 / 5⟩
      (by with_unfolding_all decide)⟩

theorem nearestScan_mem (t : ℚ) :
    ∀ (fs : List ℚ) (best : ℚ), nearestScan t best fs ∈ best :: fs := by
  intro fs
  induction fs with
  | nil => intro best; simp [nearestScan]
  | cons c rest ih =>
    intro best
    rw [nearestScan]
    split_ifs with h
    · exact List.mem_cons_of_mem best (ih c)
    · rcases List.mem_cons.mp (ih best) with h1 | h2
      · rw [h1]
        exact List.mem_cons_self _ _
      · exact List.mem_cons_of_mem _ (List.mem_cons_of_mem _ h2)

theorem nearestScan_min (t : ℚ) :
    ∀ (fs : List ℚ) (best : ℚ), ∀ f ∈ best :: fs,
      |nearestScan t best fs - t| ≤ |f - t| := by
  intro fs
  induction fs with
  | nil =>
    intro best f hf
    rcases List.mem_cons.mp hf with rfl | h2
    · simp [nearestScan]
    · simp at h2
  | cons c rest ih =>
    intro best f hf
    rw [nearestScan]
    split_ifs with h
    · rcases List.mem_cons.mp hf with h1 | hf2
      · rw [h1]
        exact le_trans (ih c c (List.mem_cons_self c rest)) (le_of_lt h)
      · exact ih c f hf2
    · rcases List.mem_cons.mp hf with h1 | hf2
      · rw [h1]
        exact ih best best (List.mem_cons_self best rest)
      · rcases List.mem_cons.mp hf2 with h2 | hf3
        · rw [h2]
          exact le_trans (ih best best (List.mem_cons_self best rest)) (not_lt.mp h)
        · exact ih best f (List.mem_cons_of_mem best hf3)

theorem nearestScan_first (t : ℚ) :
    ∀ (fs : List ℚ) (best : ℚ),
      ∃ pre post, best :: fs = pre ++ nearestScan t best fs :: post ∧
        ∀ f ∈ pre, |nearestScan t best fs - t| < |f - t| := by
  intro fs
  induction fs with
  | nil =>
    intro best
    exact ⟨[], [], by simp [nearestScan], by simp⟩
  | cons c rest ih =>
    intro best
    rw [nearestScan]
    split_ifs with h
    · obtain ⟨pre, post, heq, hpre⟩ := ih c
      refine ⟨best :: pre, post, by rw [List.cons_append, ← heq], ?_⟩
      intro f hf
      rcases List.mem_cons.mp hf with h1 | hf2
      · rw [h1]
        exact lt_of_le_of_lt (nearestScan_min t rest c c (List.mem_cons_self c rest)) h
      · exact hpre f hf2
    · obtain ⟨pre, post, heq, hpre⟩ := ih best
      match pre, heq with
      | [], heq =>
        simp only [List.nil_append, List.cons.injEq] at heq
        refine ⟨[], c :: rest, ?_, by simp⟩
        rw [List.nil_append, ← heq.1]
      | p :: pre', heq =>
        simp only [List.cons_append, List.cons.injEq] at heq
        refine ⟨best :: c :: pre', post, ?_, ?_⟩
        · rw [List.cons_append, List.cons_append, ← heq.2]
        · intro f hf
          have hbest : |nearestScan t best rest - t| < |best - t| := by
            have := hpre p (List.mem_cons_self p pre')
            rw [← heq.1] at this
            exact this
          rcases List.mem_cons.mp hf with h1 | hf2
          · rw [h1]
            exact hbest
          · rcases List.mem_cons.mp hf2 with h2 | hf3
            · rw [h2]
              exact lt_of_lt_of_le hbest (not_lt.mp h)
            · exact hpre f (List.mem_cons_of_mem p hf3)

theorem lookupFreq_of_mem_keys :
    ∀ (buffers : List (ℚ × ℕ)) (nf : ℚ), nf ∈ buffers.map Prod.fst →
      ∃ b, lookupFreq buffers nf = some b := by
  intro buffers
  induction buffers with
  | nil => intro nf h; simp at h
  | cons p tl ih =>
    rcases p with ⟨f, b⟩
    intro nf h
    rw [List.map_cons] at h
    by_cases he : f = nf
    · exact ⟨b, by rw [lookupFreq, if_pos he]⟩
    · rcases List.mem_cons.mp h with h1 | h2
      · exact absurd h1.symm he
      · obtain ⟨b', hb'⟩ := ih nf h2
        exact ⟨b', by rw [lookupFreq, if_neg he]; exact hb'⟩

/-- **C7.** `resolveBuffer` returns the exact-frequency buffer with playback
rate 1.0 when the target is a stored key; otherwise it returns the buffer of
the stored frequency with minimal absolute difference to the target (the
first-seen frequency winning ties) with playback rate target/nearest; it
returns no match when the map has no entries or the computed rate is ≤ 0 (in
the source: non-finite or ≤ 0). -/
theorem resolveBuffer_nearest_spec (buffers : List (ℚ × ℕ)) (t : ℚ) :
    (buffers = [] → resolveBuffer buffers t = none) ∧
    (∀ b, lookupFreq buffers t = some b → resolveBuffer buffers t = some (b, 1)) ∧
    (lookupFreq buffers t = none → buffers ≠ [] →
      ∃ nf b, isFirstNearest t nf (buffers.map Prod.fst) ∧
        lookupFreq buffers nf = some b ∧
        resolveBuffer buffers t = (if t / nf ≤ 0 then none else some (b, t / nf))) := by
  refine ⟨?_, ?_, ?_⟩
  · rintro rfl
    rfl
  · intro b hb
    unfold resolveBuffer
    rw [hb]
  · intro hn hne
    match buffers, hne with
    | (f0, b0) :: tl, _ =>
      have hmem : nearestScan t f0 (tl.map Prod.fst) ∈ ((f0, b0) :: tl).map Prod.fst := by
        rw [List.map_cons]
        exact nearestScan_mem t _ f0
      obtain ⟨b, hb⟩ := lookupFreq_of_mem_keys _ _ hmem
      refine ⟨nearestScan t f0 (tl.map Prod.fst), b, ⟨hmem, ?_, ?_⟩, hb, ?_⟩
      · intro f hf
        rw [List.map_cons] at hf
        exact nearestScan_min t _ f0 f hf
      · rw [List.map_cons]
        exact nearestScan_first t _ f0
      · unfold resolveBuffer
        rw [hn, List.map_cons]
        dsimp only
        rw [hb]

theorem resolveBuffer_nearest_spec_witness :
    (lookupFreq [(440, 1), (880, 2)] 660 = none ∧ ([((440 : ℚ), 1), (880, 2)] : List (ℚ × ℕ)) ≠ []) ∧
      ∃ nf b, isFirstNearest 660 nf ([((440 : ℚ), 1), (880, 2)].map Prod.fst) ∧
        lookupFreq [(440, 1), (880, 2)] nf = some b ∧
        resolveBuffer [(440, 1), (880, 2)] 660 =
          (if (660 : ℚ) / nf ≤ 0 then none else some (b, 660 / nf)) :=
  ⟨⟨by decide, by decide⟩,
    (resolveBuffer_nearest_spec [(440, 1), (880, 2)] 660).2.2 (by decide) (by decide)⟩

theorem matchNote_some_shape (cs : List Char) (c : Char) (a ds : List Char)
    (h : matchNote cs = some (c, a, ds)) :
    cs = c :: a ++ ds ∧ ('a' ≤ c ∧ c ≤ 'g') ∧
      (a = [] ∨ a = ['#'] ∨ a = ['b']) ∧ ds ≠ [] ∧ ∀ d ∈ ds, isDigitChar d := by
  match cs with
  | [] => exact absurd h (by simp [matchNote])
  | c0 :: rest =>
    match rest with
    | [] =>
      simp only [matchNote] at h
      split_ifs at h <;> exact Option.noConfusion h
    | a0 :: r2 =>
      simp only [matchNote] at h
      split_ifs at h with h1 h2 h3 h4
      all_goals try exact Option.noConfusion h
      all_goals
        simp only [Option.some.injEq, Prod.mk.injEq] at h
      all_goals obtain ⟨rfl, rfl, rfl⟩ := h
      all_goals simp only [Bool.and_eq_true, decide_eq_true_eq] at h1
      all_goals
        first
          | (rw [Bool.and_eq_true] at h3
             refine ⟨rfl, h1, ?_, ?_, ?_⟩
             · rcases Bool.or_eq_true _ _ |>.mp h2 with hs | hs
               · right
                 left
                 rw [decide_eq_true_eq] at hs
                 rw [hs]
               · right
                 right
                 rw [decide_eq_true_eq] at hs
                 rw [hs]
             · intro hr2
               rw [hr2] at h3
               simp at h3
             · have hall := h3.2
               rw [List.all_eq_true] at hall
               exact hall)
          | (rw [List.all_eq_true] at h3
             exact ⟨rfl, h1, Or.inl rfl, by simp, h3⟩)
          | (rw [List.all_eq_true] at h4
             exact ⟨rfl, h1, Or.inl rfl, by simp, h4⟩)

theorem matchNote_of_pattern (cs : List Char) (h : validNotePattern cs) :
    ∃ r, matchNote cs = some r := by
  obtain ⟨c, a, ds, rfl, hc, ha, hds, hdigits⟩ := h
  have hl : ('a' ≤ c && c ≤ 'g') = true := by
    simp [hc.1, hc.2]
  rcases ha with rfl | rfl | rfl
  · match ds, hds with
    | d0 :: ds', _ =>
      have hd0 : isDigitChar d0 = true := hdigits d0 (List.mem_cons_self d0 ds')
      have hno : (d0 = '#' || d0 = 'b') = false := by
        rcases Bool.eq_false_or_eq_true (decide (d0 = '#') || decide (d0 = 'b')) with htr | hf
        · exfalso
          rcases Bool.or_eq_true _ _ |>.mp htr with hs | hs <;>
            rw [decide_eq_true_eq] at hs <;> rw [hs] at hd0 <;> exact absurd hd0 (by decide)
        · exact hf
      refine ⟨(c, [], d0 :: ds'), ?_⟩
      simp only [List.singleton_append, List.cons_append, List.nil_append, matchNote,
        if_pos hl]
      rw [if_neg (by simp [hno]), if_pos (by simp only [List.all_eq_true]; exact hdigits)]
  · match ds, hds with
    | d0 :: ds', _ =>
      refine ⟨(c, ['#'], d0 :: ds'), ?_⟩
      simp only [List.singleton_append, List.cons_append, List.nil_append, matchNote,
        if_pos hl]
      rw [if_pos (by simp), if_pos ?_]
      simp only [Bool.and_eq_true, Bool.not_eq_true', List.isEmpty_eq_false, List.all_eq_true]
      exact ⟨by simp, hdigits⟩
  · match ds, hds with
    | d0 :: ds', _ =>
      refine ⟨(c, ['b'], d0 :: ds'), ?_⟩
      simp only [List.singleton_append, List.cons_append, List.nil_append, matchNote,
        if_pos hl]
      rw [if_pos (by simp), if_pos ?_]
      simp only [Bool.and_eq_true, Bool.not_eq_true', List.isEmpty_eq_false, List.all_eq_true]
      exact ⟨by simp, hdigits⟩

theorem matchNote_some_iff (cs : List Char) :
    (∃ r, matchNote cs = some r) ↔ validNotePattern cs := by
  constructor
  · rintro ⟨⟨c, a, ds⟩, h⟩
    obtain ⟨hcs, hc, ha, hds, hdig⟩ := matchNote_some_shape cs c a ds h
    exact ⟨c, a, ds, hcs, hc, ha, hds, hdig⟩
  · exact matchNote_of_pattern cs

/-- **C6 (counterexample).** The claim says `+` (sharp) and `-` (flat) are
accepted accidentals; the source regular expression `[a-g][#b]?\d+` accepts
only `#` and `b`, so `"C+4"` and `"E-2"` throw a FormatError. -/
theorem noteToFrequency_rejects_plus_minus_counterexample :
    noteToFrequency "C+4" = .error .formatError ∧
      noteToFrequency "E-2" = .error .formatError := by
  have h1 : noteDistance "C+4" = .error .formatError := by with_unfolding_all decide
  have h2 : noteDistance "E-2" = .error .formatError := by with_unfolding_all decide
  constructor
  · rw [noteToFrequency, h1]
    rfl
  · rw [noteToFrequency, h2]
    rfl

/-- **C6 (amended).** `noteToFrequency` accepts exactly the strings whose
trimmed, lower-cased form is a letter a–g, an optional `#` (sharp) or `b`
(flat) accidental, and a non-empty run of digits (the octave); for such
strings it returns, without error, the rounded equal-temperament frequency
of the accidental-adjusted semitone distance, and it throws a FormatError
exactly when the string does not match this pattern (the `+`/`-` spellings
belong to the MML parser, not to this converter). -/
theorem noteToFrequency_pattern_characterization (s : String) :
    ((∃ q, noteToFrequency s = .ok q) ↔ validNotePattern (normalizeNote s)) ∧
      (∀ c a ds, matchNote (normalizeNote s) = some (c, a, ds) →
        noteToFrequency s = .ok (roundFreq
          (semitoneOffset c + accidentalAdjust a + ((digitsToNat ds : ℤ) - 4) * 12))) ∧
      (matchNote (normalizeNote s) = none →
        noteToFrequency s = .error .formatError) := by
  rcases hm : matchNote (normalizeNote s) with _ | ⟨c, a, ds⟩
  · have hnd : noteDistance s = .error .formatError := by
      rw [noteDistance, hm]
    refine ⟨⟨?_, ?_⟩, ?_, ?_⟩
    · rintro ⟨q, hq⟩
      rw [noteToFrequency, hnd] at hq
      exact Except.noConfusion hq
    · intro hp
      obtain ⟨r, hr⟩ := (matchNote_some_iff _).mpr hp
      rw [hm] at hr
      exact Option.noConfusion hr
    · intro c a ds h
      exact Option.noConfusion h
    · intro _
      rw [noteToFrequency, hnd]
      rfl
  · have hnd : noteDistance s =
        .ok (semitoneOffset c + accidentalAdjust a + ((digitsToNat ds : ℤ) - 4) * 12) := by
      rw [noteDistance, hm]
    refine ⟨⟨?_, ?_⟩, ?_, ?_⟩
    · intro _
      exact (matchNote_some_iff _).mp ⟨_, hm⟩
    · intro _
      refine ⟨roundFreq (semitoneOffset c + accidentalAdjust a +
        ((digitsToNat ds : ℤ) - 4) * 12), ?_⟩
      rw [noteToFrequency, hnd]
      rfl
    · intro c' a' ds' h
      simp only [Option.some.injEq, Prod.mk.injEq] at h
      obtain ⟨rfl, rfl, rfl⟩ := h
      rw [noteToFrequency, hnd]
      rfl
    · intro h
      exact Option.noConfusion h

theorem noteToFrequency_pattern_characterization_witness :
    matchNote (normalizeNote "c3") = some ('c', [], ['3']) ∧
      noteToFrequency "c3" = .ok (roundFreq
        (semitoneOffset 'c' + accidentalAdjust [] + ((digitsToNat ['3'] : ℤ) - 4) * 12)) :=
  ⟨by with_unfolding_all decide,
    (noteToFrequency_pattern_characterization "c3").2.1 'c' [] ['3']
      (by with_unfolding_all decide)⟩

theorem roundFreq_pos_of_ge (d : ℤ) (h : -49 ≤ d) : 0 < roundFreq d := by
  have h1 : (2 : ℝ) ^ ((-5 : ℝ)) ≤ (2 : ℝ) ^ ((d : ℝ) / 12) := by
    rw [Real.rpow_le_rpow_left_iff (by norm_num : (1 : ℝ) < 2)]
    have : (-49 : ℝ) ≤ (d : ℝ) := by exact_mod_cast h
    linarith
  have h2 : (2 : ℝ) ^ ((-5 : ℝ)) = 1 / 32 := by
    rw [show ((-5 : ℝ)) = -((5 : ℕ) : ℝ) by norm_num, Real.rpow_neg (by norm_num),
      Real.rpow_natCast]
    norm_num
  have h3 : (1375 : ℝ) ≤ rawFreq d * 100 + 1 / 2 := by
    unfold rawFreq
    rw [h2] at h1
    nlinarith
  have h4 : (1375 : ℤ) ≤ ⌊rawFreq d * 100 + 1 / 2⌋ := Int.le_floor.mpr (by exact_mod_cast h3)
  unfold roundFreq
  have : (1375 : ℚ) ≤ ((⌊rawFreq d * 100 + 1 / 2⌋ : ℤ) : ℚ) := by exact_mod_cast h4
  linarith

theorem roundFreq_double_approx (d : ℤ) :
    |roundFreq (d + 12) - 2 * roundFreq d| ≤ 1 / 100 := by
  set x : ℝ := rawFreq d * 100 with hx
  have h2x : rawFreq (d + 12) * 100 = 2 * x := by
    rw [rawFreq_add_twelve]
    ring
  set m : ℤ := ⌊x + 1 / 2⌋ with hm
  set n : ℤ := ⌊2 * x + 1 / 2⌋ with hn
  have hm1 : (m : ℝ) ≤ x + 1 / 2 := Int.floor_le _
  have hm2 : x + 1 / 2 < m + 1 := Int.lt_floor_add_one _
  have hn1 : (n : ℝ) ≤ 2 * x + 1 / 2 := Int.floor_le _
  have hn2 : 2 * x + 1 / 2 < n + 1 := Int.lt_floor_add_one _
  have habs : |(n : ℝ) - 2 * m| < 3 / 2 := by
    rw [abs_lt]
    constructor <;> linarith
  have hint : |n - 2 * m| ≤ 1 := by
    have h2 : ((|n - 2 * m| : ℤ) : ℝ) < 2 := by
      rw [Int.cast_abs]
      push_cast
      calc |(n : ℝ) - 2 * m| < 3 / 2 := habs
        _ < 2 := by norm_num
    have : |n - 2 * m| < 2 := by exact_mod_cast h2
    omega
  have hrf2 : roundFreq (d + 12) = (n : ℚ) / 100 := by
    unfold roundFreq
    rw [h2x]
  have hrf1 : roundFreq d = (m : ℚ) / 100 := by
    unfold roundFreq
    rw [← hx]
  rw [hrf1, hrf2]
  rw [show (n : ℚ) / 100 - 2 * ((m : ℚ) / 100) = ((n - 2 * m : ℤ) : ℚ) / 100 by
    push_cast
    ring]
  rw [abs_div, show |(100 : ℚ)| = 100 by norm_num, ← Int.cast_abs]
  have hq : ((|n - 2 * m| : ℤ) : ℚ) ≤ 1 := by exact_mod_cast hint
  linarith

theorem roundFreq_zero : roundFreq 0 = 440 := by
  have h0 : rawFreq 0 = 440 := by
    unfold rawFreq
    rw [show ((0 : ℤ) : ℝ) / 12 = 0 by norm_num, Real.rpow_zero]
    ring
  unfold roundFreq
  rw [h0, show ⌊(440 * 100 + 1 / 2 : ℝ)⌋ = 44000 by norm_num [Int.floor_eq_iff]]
  norm_num

theorem roundFreq_twelve : roundFreq 12 = 880 := by
  have h0 : rawFreq 12 = 880 := by
    have := rawFreq_add_twelve 0
    rw [show (0 + 12 : ℤ) = 12 by norm_num] at this
    rw [this]
    unfold rawFreq
    rw [show ((0 : ℤ) : ℝ) / 12 = 0 by norm_num, Real.rpow_zero]
    ring
  unfold roundFreq
  rw [h0, show ⌊(880 * 100 + 1 / 2 : ℝ)⌋ = 88000 by norm_num [Int.floor_eq_iff]]
  norm_num

theorem twoPowThreeQuarters_ge : (1.6 : ℝ) ≤ (2 : ℝ) ^ ((3 : ℝ) / 4) := by
  set a : ℝ := (2 : ℝ) ^ ((3 : ℝ) / 4) with haDef
  have hnn : (0 : ℝ) ≤ a := Real.rpow_nonneg (by norm_num) _
  have hpow : a ^ (4 : ℕ) = 8 := by
    rw [haDef, ← Real.rpow_natCast ((2 : ℝ) ^ ((3 : ℝ) / 4)) 4,
      ← Real.rpow_mul (by norm_num : (0 : ℝ) ≤ 2)]
    rw [show ((3 : ℝ) / 4 * ((4 : ℕ) : ℝ)) = ((3 : ℕ) : ℝ) by norm_num]
    rw [Real.rpow_natCast]
    norm_num
  by_contra hc
  push_neg at hc
  have : a ^ (4 : ℕ) < (1.6 : ℝ) ^ (4 : ℕ) := pow_lt_pow_left hc hnn (by norm_num)
  rw [hpow] at this
  norm_num at this

theorem roundFreq_nine_ge : (704 : ℚ) ≤ roundFreq 9 := by
  have hexp : ((9 : ℤ) : ℝ) / 12 = (3 : ℝ) / 4 := by norm_num
  have hraw : (704 : ℝ) ≤ rawFreq 9 := by
    unfold rawFreq
    rw [hexp]
    nlinarith [twoPowThreeQuarters_ge]
  have h4 : (70400 : ℤ) ≤ ⌊rawFreq 9 * 100 + 1 / 2⌋ := by
    apply Int.le_floor.mpr
    push_cast
    nlinarith
  unfold roundFreq
  have : (70400 : ℚ) ≤ ((⌊rawFreq 9 * 100 + 1 / 2⌋ : ℤ) : ℚ) := by exact_mod_cast h4
  linarith

theorem twoPowTwelfth_bounds :
    (1.059461 : ℝ) < (2 : ℝ) ^ ((1 : ℝ) / 12) ∧
      (2 : ℝ) ^ ((1 : ℝ) / 12) < (1.059465 : ℝ) := by
  set a : ℝ := (2 : ℝ) ^ ((1 : ℝ) / 12) with haDef
  have hnn : (0 : ℝ) ≤ a := Real.rpow_nonneg (by norm_num) _
  have hpow : a ^ (12 : ℕ) = 2 := by
    rw [haDef, ← Real.rpow_natCast ((2 : ℝ) ^ ((1 : ℝ) / 12)) 12,
      ← Real.rpow_mul (by norm_num : (0 : ℝ) ≤ 2)]
    rw [show ((1 : ℝ) / 12 * ((12 : ℕ) : ℝ)) = ((1 : ℕ) : ℝ) by norm_num]
    rw [Real.rpow_natCast]
    norm_num
  constructor
  · by_contra hc
    push_neg at hc
    have : a ^ (12 : ℕ) ≤ (1.059461 : ℝ) ^ (12 : ℕ) := pow_le_pow_left hnn hc 12
    rw [hpow] at this
    norm_num at this
  · by_contra hc
    push_neg at hc
    have : (1.059465 : ℝ) ^ (12 : ℕ) ≤ a ^ (12 : ℕ) := pow_le_pow_left (by norm_num) hc 12
    rw [hpow] at this
    norm_num at this

theorem roundFreq_one_val : roundFreq 1 = 46616 / 100 := by
  obtain ⟨hlo, hhi⟩ := twoPowTwelfth_bounds
  have hexp : ((1 : ℤ) : ℝ) / 12 = (1 : ℝ) / 12 := by norm_num
  have hfl : ⌊rawFreq 1 * 100 + 1 / 2⌋ = 46616 := by
    rw [Int.floor_eq_iff]
    unfold rawFreq
    rw [hexp]
    constructor
    · push_cast
      nlinarith
    · push_cast
      nlinarith
  unfold roundFreq
  rw [hfl]
  norm_num

theorem roundFreq_thirteen_val : roundFreq 13 = 93233 / 100 := by
  obtain ⟨hlo, hhi⟩ := twoPowTwelfth_bounds
  have h13 : rawFreq 13 = 2 * rawFreq 1 := by
    have := rawFreq_add_twelve 1
    rw [show (1 + 12 : ℤ) = 13 by norm_num] at this
    exact this
  have hexp : ((1 : ℤ) : ℝ) / 12 = (1 : ℝ) / 12 := by norm_num
  have hfl : ⌊rawFreq 13 * 100 + 1 / 2⌋ = 93233 := by
    rw [Int.floor_eq_iff, h13]
    unfold rawFreq
    rw [hexp]
    constructor
    · push_cast
      nlinarith
    · push_cast
      nlinarith
  unfold roundFreq
  rw [hfl]
  norm_num

theorem semitoneOffset_nonneg (c : Char) : 0 ≤ semitoneOffset c := by
  unfold semitoneOffset
  split_ifs <;> norm_num

theorem accidentalAdjust_ge (a : List Char) : -1 ≤ accidentalAdjust a := by
  unfold accidentalAdjust
  split_ifs <;> norm_num

theorem noteDistance_ge (s : String) (d : ℤ) (h : noteDistance s = .ok d) : -49 ≤ d := by
  unfold noteDistance at h
  rcases hm : matchNote (normalizeNote s) with _ | ⟨c, a, ds⟩
  · rw [hm] at h
    exact Except.noConfusion h
  · rw [hm] at h
    simp only [Except.ok.injEq] at h
    rw [← h]
    have h1 := semitoneOffset_nonneg c
    have h2 := accidentalAdjust_ge a
    have h3 : (0 : ℤ) ≤ (digitsToNat ds : ℤ) := Int.ofNat_nonneg _
    nlinarith

/-- **C1 (counterexample).** The converter is referenced to 440 Hz at C of
octave 4, not at A4: `noteToFrequency("A4")` is at least 704 Hz (in fact
739.99), not 440.  Rounding to 2 decimal places also breaks exact octave
doubling of the returned value: C#4 gives 466.16 and C#5 gives 932.33, and
932.33 ≠ 2 × 466.16. -/
theorem noteToFrequency_not_A440_counterexample :
    noteToFrequency "A4" ≠ .ok 440 ∧
      noteToFrequency "C#4" = .ok (46616 / 100) ∧
      noteToFrequency "C#5" = .ok (93233 / 100) ∧
      (93233 / 100 : ℚ) ≠ 2 * (46616 / 100) := by
  have hA : noteDistance "A4" = .ok 9 := by with_unfolding_all decide
  have h1 : noteDistance "C#4" = .ok 1 := by with_unfolding_all decide
  have h13 : noteDistance "C#5" = .ok 13 := by with_unfolding_all decide
  refine ⟨?_, ?_, ?_, by norm_num⟩
  · intro hc
    rw [noteToFrequency, hA] at hc
    simp only [Except.map, Except.ok.injEq] at hc
    have := roundFreq_nine_ge
    rw [hc] at this
    norm_num at this
  · rw [noteToFrequency, h1]
    simp only [Except.map]
    rw [roundFreq_one_val]
  · rw [noteToFrequency, h13]
    simp only [Except.map]
    rw [roundFreq_thirteen_val]

/-- **C1 (amended).** For every note string the converter accepts, the
returned value is the 2-decimal rounding of `440 · 2^(d/12)` where `d` is the
semitone distance from C4 (the 440 Hz reference sits at C, octave 4, not at
A4); the value is positive; transposing up one octave (same letter and
accidental, octave + 1) adds 12 to the distance, exactly doubles the
unrounded frequency, and doubles the returned rounded value to within 0.01;
in particular `noteToFrequency("C4") = 440.0` and
`noteToFrequency("C5") = 880.0`. -/
theorem noteToFrequency_octave_properties (s : String) (d : ℤ)
    (h : noteDistance s = .ok d) :
    noteToFrequency s = .ok (roundFreq d) ∧
      0 < roundFreq d ∧
      rawFreq (d + 12) = 2 * rawFreq d ∧
      |roundFreq (d + 12) - 2 * roundFreq d| ≤ 1 / 100 ∧
      (∀ (s' : String) (c : Char) (a ds ds' : List Char),
        matchNote (normalizeNote s) = some (c, a, ds) →
        matchNote (normalizeNote s') = some (c, a, ds') →
        (digitsToNat ds' : ℤ) = (digitsToNat ds : ℤ) + 1 →
        noteDistance s' = .ok (d + 12)) ∧
      noteToFrequency "C4" = .ok 440 ∧ noteToFrequency "C5" = .ok 880 := by
  have hC4 : noteDistance "C4" = .ok 0 := by with_unfolding_all decide
  have hC5 : noteDistance "C5" = .ok 12 := by with_unfolding_all decide
  refine ⟨?_, roundFreq_pos_of_ge d (noteDistance_ge s d h), rawFreq_add_twelve d,
    roundFreq_double_approx d, ?_, ?_, ?_⟩
  · rw [noteToFrequency, h]
    rfl
  · intro s' c a ds ds' hm hm' hds'
    have hd : semitoneOffset c + accidentalAdjust a + ((digitsToNat ds : ℤ) - 4) * 12 = d := by
      unfold noteDistance at h
      rw [hm] at h
      simpa using h
    unfold noteDistance
    rw [hm']
    simp only [Except.ok.injEq]
    rw [hds']
    rw [← hd]
    ring
  · rw [noteToFrequency, hC4]
    simp only [Except.map]
    rw [roundFreq_zero]
  · rw [noteToFrequency, hC5]
    simp only [Except.map]
    rw [roundFreq_twelve]

theorem noteToFrequency_octave_properties_witness :
    noteDistance "a4" = .ok 9 ∧
      (noteToFrequency "a4" = .ok (roundFreq 9) ∧
        0 < roundFreq 9 ∧
        rawFreq (9 + 12) = 2 * rawFreq 9 ∧
        |roundFreq (9 + 12) - 2 * roundFreq 9| ≤ 1 / 100 ∧
        (∀ (s' : String) (c : Char) (a ds ds' : List Char),
          matchNote (normalizeNote "a4") = some (c, a, ds) →
          matchNote (normalizeNote s') = some (c, a, ds') →
          (digitsToNat ds' : ℤ) = (digitsToNat ds : ℤ) + 1 →
          noteDistance s' = .ok (9 + 12)) ∧
        noteToFrequency "C4" = .ok 440 ∧ noteToFrequency "C5" = .ok 880) :=
  ⟨by with_unfolding_all decide,
    noteToFrequency_octave_properties "a4" 9 (by with_unfolding_all decide)⟩
